import Mathlib

/-!
Verification development for the vibeGraphql core: a shallow embedding of the
lexer (lexer/lexer.go), the recursive-descent parser (parser/parser.go), the
AST (ast package) and the execution engine (executor package), with theorems
about their behaviour.

Modelling conventions:
* Go byte strings are `List Char` (ASCII inputs; the lexer's `isLetter` uses
  `Char.isAlpha`, which agrees with Go's `unicode.IsLetter` on ASCII bytes).
* Go maps are association lists with replace-on-insert semantics, or lookup
  functions `String → Option _` where only lookup is performed.
* Go `nil` pointers/interfaces are `Option.none` / a dedicated `vNil` value.
* Parser loops that may not terminate are given a fuel parameter; every call
  consumes one unit of fuel and exhaustion yields `none`, so divergence of the
  Go code corresponds to `∀ fuel, … = none`.
* A Go `panic` (nil-pointer dereference) is the explicit result `ExecRes.panics`.
-/

namespace VG

/-- Go byte 0, used by the lexer as its end-of-input sentinel (`l.ch = 0`). -/
def nulChar : Char := Char.ofNat 0

/-- Token kinds of the token package (token/token.go). -/
inductive TokType where
  | illegal
  | eof
  | ident
  | int
  | string
  | assign
  | colon
  | comma
  | semicolon
  | lparen
  | rparen
  | lbrace
  | rbrace
  | lbracket
  | rbracket
  | dollar
  | bang
deriving DecidableEq

/-- A lexical token: kind plus literal (token.Token). -/
structure Token where
  typ : TokType
  literal : String
deriving DecidableEq

/-- Lexer state: the current character under examination and the input that
follows it.  This is observationally the Go lexer's `(ch, input[readPosition:])`;
`ch = nulChar` with empty `rest` is the end-of-input state. -/
structure Lexer where
  ch : Char
  rest : List Char
deriving DecidableEq

/-- readChar advances the lexer to the next character (lexer.go `readChar`). -/
def Lexer.readChar (l : Lexer) : Lexer :=
  match l.rest with
  | [] => ⟨nulChar, []⟩
  | c :: cs => ⟨c, cs⟩

/-- New creates a lexer over the input and primes the first character. -/
def Lexer.new (input : List Char) : Lexer :=
  Lexer.readChar ⟨nulChar, input⟩

/-- isLetter (lexer.go): letter or underscore. -/
def isLetter (c : Char) : Bool := c.isAlpha || c = '_'

/-- Characters accepted inside an identifier after the first one. -/
def isIdentChar (c : Char) : Bool := isLetter c || c.isDigit

/-- Whitespace skipped between tokens (space, tab, newline, carriage return). -/
def isWs (c : Char) : Bool := c = ' ' || c = '\t' || c = '\n' || c = '\r'

/-- Character that continues a string literal body: anything other than the
closing quote or the end-of-input sentinel. -/
def isStrBody (c : Char) : Bool := !(c == '"') && !(c == nulChar)

/-- The whitespace-skipping loop, structurally recursive on the input tail.
When the current char is whitespace and the input is exhausted, the Go loop
does one more `readChar`, landing on the `(nulChar, [])` state. -/
def skipWsAux : Char → List Char → Char × List Char
  | c, rest =>
    if isWs c then
      match rest with
      | [] => (nulChar, [])
      | c' :: cs => skipWsAux c' cs
    else (c, rest)

def Lexer.skipWhitespace (l : Lexer) : Lexer :=
  let r := skipWsAux l.ch l.rest
  ⟨r.1, r.2⟩

/-- A maximal run of characters satisfying `p`, returning the collected run and
the lexer state after it.  Used for identifiers, numbers and string bodies;
all three predicates reject `nulChar`, exactly as the Go loops stop on `ch = 0`. -/
def readRunAux (p : Char → Bool) : Char → List Char → List Char × (Char × List Char)
  | c, rest =>
    if p c then
      match rest with
      | [] => ([c], (nulChar, []))
      | c' :: cs =>
        let r := readRunAux p c' cs
        (c :: r.1, r.2)
    else ([], (c, rest))

def Lexer.readRun (p : Char → Bool) (l : Lexer) : String × Lexer :=
  let r := readRunAux p l.ch l.rest
  (String.mk r.1, ⟨r.2.1, r.2.2⟩)

/-- readString (lexer.go): skip the opening quote, take bytes verbatim until a
closing quote or end of input, then skip the closing quote. -/
def Lexer.readString (l : Lexer) : String × Lexer :=
  let r := (l.readChar).readRun isStrBody
  (r.1, r.2.readChar)

/-- NextToken (lexer.go): skip whitespace, then dispatch on the current byte. -/
def Lexer.NextToken (l0 : Lexer) : Token × Lexer :=
  let l := l0.skipWhitespace
  if l.ch = '=' then (⟨.assign, String.mk [l.ch]⟩, l.readChar)
  else if l.ch = ':' then (⟨.colon, String.mk [l.ch]⟩, l.readChar)
  else if l.ch = ',' then (⟨.comma, String.mk [l.ch]⟩, l.readChar)
  else if l.ch = ';' then (⟨.semicolon, String.mk [l.ch]⟩, l.readChar)
  else if l.ch = '(' then (⟨.lparen, String.mk [l.ch]⟩, l.readChar)
  else if l.ch = ')' then (⟨.rparen, String.mk [l.ch]⟩, l.readChar)
  else if l.ch = '{' then (⟨.lbrace, String.mk [l.ch]⟩, l.readChar)
  else if l.ch = '}' then (⟨.rbrace, String.mk [l.ch]⟩, l.readChar)
  else if l.ch = '[' then (⟨.lbracket, String.mk [l.ch]⟩, l.readChar)
  else if l.ch = ']' then (⟨.rbracket, String.mk [l.ch]⟩, l.readChar)
  else if l.ch = '"' then
    let r := l.readString
    (⟨.string, r.1⟩, r.2)
  else if l.ch = '$' then (⟨.dollar, String.mk [l.ch]⟩, l.readChar)
  else if l.ch = '!' then (⟨.bang, String.mk [l.ch]⟩, l.readChar)
  else if l.ch = nulChar then (⟨.eof, ""⟩, l.readChar)
  else if isLetter l.ch then
    let r := l.readRun isIdentChar
    (⟨.ident, r.1⟩, r.2)
  else if l.ch.isDigit then
    let r := l.readRun Char.isDigit
    (⟨.int, r.1⟩, r.2)
  else (⟨.illegal, String.mk [l.ch]⟩, l.readChar)

/-- The lexer state after `n` calls to NextToken. -/
def lexSteps (l : Lexer) : Nat → Lexer
  | 0 => l
  | n + 1 => lexSteps (l.NextToken).2 n

/-- The token produced by the `(n+1)`-st call to NextToken. -/
def nthToken (l : Lexer) (n : Nat) : Token := ((lexSteps l n).NextToken).1

/-- Termination measure for the lexer: twice the unread input plus one if the
current character is not the end sentinel. -/
def lexMeasure (l : Lexer) : Nat :=
  2 * l.rest.length + (if l.ch = nulChar then 0 else 1)

theorem lexMeasure_eq_zero {l : Lexer} (h : lexMeasure l = 0) : l = ⟨nulChar, []⟩ := by
  cases l with
  | mk c rest =>
    unfold lexMeasure at h
    split at h
    · next hc =>
      subst hc
      cases rest with
      | nil => rfl
      | cons x xs => simp at h
    · omega

theorem readChar_le (l : Lexer) : lexMeasure l.readChar ≤ lexMeasure l := by
  cases l with
  | mk c rest =>
    cases rest with
    | nil => simp [Lexer.readChar, lexMeasure]
    | cons x xs =>
      simp only [Lexer.readChar, lexMeasure, List.length_cons]
      split <;> split <;> omega

theorem readChar_lt_of_ne {l : Lexer} (h : l.ch ≠ nulChar) :
    lexMeasure l.readChar < lexMeasure l := by
  cases l with
  | mk c rest =>
    cases rest with
    | nil => simp_all [Lexer.readChar, lexMeasure]
    | cons x xs =>
      simp only [Lexer.readChar, lexMeasure, List.length_cons]
      split <;> simp_all <;> omega

theorem readChar_lt_of_rest {l : Lexer} (h : l.rest ≠ []) :
    lexMeasure l.readChar < lexMeasure l := by
  cases l with
  | mk c rest =>
    cases rest with
    | nil => simp at h
    | cons x xs =>
      simp only [Lexer.readChar, lexMeasure, List.length_cons]
      split <;> split <;> omega

theorem skipWsAux_le (c : Char) (rest : List Char) :
    lexMeasure ⟨(skipWsAux c rest).1, (skipWsAux c rest).2⟩ ≤ lexMeasure ⟨c, rest⟩ := by
  induction rest generalizing c with
  | nil =>
    rw [skipWsAux]
    split
    · simp [lexMeasure]
    · exact Nat.le_refl _
  | cons x xs ih =>
    rw [skipWsAux]
    split
    · refine le_trans (ih x) ?_
      simp only [lexMeasure, List.length_cons]
      split <;> split <;> omega
    · exact Nat.le_refl _

theorem skipWhitespace_le (l : Lexer) :
    lexMeasure l.skipWhitespace ≤ lexMeasure l := by
  cases l with
  | mk c rest => exact skipWsAux_le c rest

theorem readRunAux_le (p : Char → Bool) (c : Char) (rest : List Char) :
    lexMeasure ⟨(readRunAux p c rest).2.1, (readRunAux p c rest).2.2⟩ ≤
      lexMeasure ⟨c, rest⟩ := by
  induction rest generalizing c with
  | nil =>
    rw [readRunAux]
    split
    · simp [lexMeasure]
    · exact Nat.le_refl _
  | cons x xs ih =>
    rw [readRunAux]
    split
    · refine le_trans (ih x) ?_
      simp only [lexMeasure, List.length_cons]
      split <;> split <;> omega
    · exact Nat.le_refl _

theorem readRun_le (p : Char → Bool) (l : Lexer) :
    lexMeasure (l.readRun p).2 ≤ lexMeasure l := by
  cases l with
  | mk c rest => exact readRunAux_le p c rest

theorem readRun_lt (p : Char → Bool) (l : Lexer) (hp : p l.ch = true)
    (hnul : l.ch ≠ nulChar) : lexMeasure (l.readRun p).2 < lexMeasure l := by
  cases l with
  | mk c rest =>
    simp only at hp hnul
    cases rest with
    | nil =>
      simp only [Lexer.readRun, readRunAux, hp, if_true]
      simp [lexMeasure, hnul]
    | cons x xs =>
      simp only [Lexer.readRun, readRunAux, hp, if_true]
      refine lt_of_le_of_lt (readRunAux_le p x xs) ?_
      simp only [lexMeasure, List.length_cons]
      split <;> simp_all <;> omega

theorem readString_lt (l : Lexer) (h : l.ch = '"') :
    lexMeasure (l.readString).2 < lexMeasure l := by
  have h1 : lexMeasure l.readChar < lexMeasure l := by
    apply readChar_lt_of_ne
    rw [h]; decide
  calc lexMeasure ((l.readChar).readRun isStrBody).2.readChar
      ≤ lexMeasure ((l.readChar).readRun isStrBody).2 := readChar_le _
    _ ≤ lexMeasure l.readChar := readRun_le _ _
    _ < lexMeasure l := h1

/-- The terminal lexer state is a fixed point of NextToken, producing EOF. -/
theorem nextToken_terminal : Lexer.NextToken ⟨nulChar, []⟩ = (⟨.eof, ""⟩, ⟨nulChar, []⟩) := by
  decide

/-- Every NextToken call either strictly decreases the measure or returns the
EOF token together with the terminal state. -/
theorem nextToken_progress (l : Lexer) :
    lexMeasure (l.NextToken).2 < lexMeasure l ∨
      l.NextToken = (⟨.eof, ""⟩, ⟨nulChar, []⟩) := by
  have hle : lexMeasure l.skipWhitespace ≤ lexMeasure l := skipWhitespace_le l
  unfold Lexer.NextToken
  set l1 := l.skipWhitespace with hl1
  by_cases h1 : l1.ch = '='
  · left; simp only [h1, if_true]
    exact lt_of_lt_of_le (readChar_lt_of_ne (by rw [h1]; decide)) hle
  all_goals simp only [h1, if_false]
  by_cases h2 : l1.ch = ':'
  · left; simp only [h2, if_true]
    exact lt_of_lt_of_le (readChar_lt_of_ne (by rw [h2]; decide)) hle
  all_goals simp only [h2, if_false]
  by_cases h3 : l1.ch = ','
  · left; simp only [h3, if_true]
    exact lt_of_lt_of_le (readChar_lt_of_ne (by rw [h3]; decide)) hle
  all_goals simp only [h3, if_false]
  by_cases h4 : l1.ch = ';'
  · left; simp only [h4, if_true]
    exact lt_of_lt_of_le (readChar_lt_of_ne (by rw [h4]; decide)) hle
  all_goals simp only [h4, if_false]
  by_cases h5 : l1.ch = '('
  · left; simp only [h5, if_true]
    exact lt_of_lt_of_le (readChar_lt_of_ne (by rw [h5]; decide)) hle
  all_goals simp only [h5, if_false]
  by_cases h6 : l1.ch = ')'
  · left; simp only [h6, if_true]
    exact lt_of_lt_of_le (readChar_lt_of_ne (by rw [h6]; decide)) hle
  all_goals simp only [h6, if_false]
  by_cases h7 : l1.ch = '{'
  · left; simp only [h7, if_true]
    exact lt_of_lt_of_le (readChar_lt_of_ne (by rw [h7]; decide)) hle
  all_goals simp only [h7, if_false]
  by_cases h8 : l1.ch = '}'
  · left; simp only [h8, if_true]
    exact lt_of_lt_of_le (readChar_lt_of_ne (by rw [h8]; decide)) hle
  all_goals simp only [h8, if_false]
  by_cases h9 : l1.ch = '['
  · left; simp only [h9, if_true]
    exact lt_of_lt_of_le (readChar_lt_of_ne (by rw [h9]; decide)) hle
  all_goals simp only [h9, if_false]
  by_cases h10 : l1.ch = ']'
  · left; simp only [h10, if_true]
    exact lt_of_lt_of_le (readChar_lt_of_ne (by rw [h10]; decide)) hle
  all_goals simp only [h10, if_false]
  by_cases h11 : l1.ch = '"'
  · left; simp only [h11, if_true]
    exact lt_of_lt_of_le (readString_lt l1 h11) hle
  all_goals simp only [h11, if_false]
  by_cases h12 : l1.ch = '$'
  · left; simp only [h12, if_true]
    exact lt_of_lt_of_le (readChar_lt_of_ne (by rw [h12]; decide)) hle
  all_goals simp only [h12, if_false]
  by_cases h13 : l1.ch = '!'
  · left; simp only [h13, if_true]
    exact lt_of_lt_of_le (readChar_lt_of_ne (by rw [h13]; decide)) hle
  all_goals simp only [h13, if_false]
  by_cases h14 : l1.ch = nulChar
  · simp only [h14, if_true]
    by_cases hr : l1.rest = []
    · right
      have hterm : l1 = (⟨nulChar, []⟩ : Lexer) := by
        calc l1 = ⟨l1.ch, l1.rest⟩ := rfl
          _ = ⟨nulChar, []⟩ := by rw [h14, hr]
      rw [hterm]
      rfl
    · left
      exact lt_of_lt_of_le (readChar_lt_of_rest hr) hle
  all_goals simp only [h14, if_false]
  by_cases h15 : isLetter l1.ch
  · left; simp only [h15, if_true]
    exact lt_of_lt_of_le (readRun_lt isIdentChar l1 (by simp [isIdentChar, h15]) h14) hle
  all_goals simp only [h15, if_false]
  by_cases h16 : l1.ch.isDigit
  · left; simp only [h16, if_true]
    exact lt_of_lt_of_le (readRun_lt Char.isDigit l1 h16 h14) hle
  all_goals simp only [h16, if_false]
  left
  exact lt_of_lt_of_le (readChar_lt_of_ne h14) hle

theorem lexSteps_terminal_fixed (k : Nat) : lexSteps ⟨nulChar, []⟩ k = ⟨nulChar, []⟩ := by
  induction k with
  | zero => rfl
  | succ n ih =>
    show lexSteps (Lexer.NextToken ⟨nulChar, []⟩).2 n = _
    rw [nextToken_terminal]
    exact ih

theorem lexSteps_reaches_terminal : ∀ (k : Nat) (l : Lexer), lexMeasure l ≤ k →
    lexSteps l k = ⟨nulChar, []⟩ := by
  intro k
  induction k with
  | zero =>
    intro l h
    have h0 : lexMeasure l = 0 := Nat.le_zero.mp h
    rw [lexMeasure_eq_zero h0]
    rfl
  | succ n ih =>
    intro l h
    show lexSteps (l.NextToken).2 n = _
    rcases nextToken_progress l with hlt | heq
    · exact ih _ (by omega)
    · rw [heq]
      exact lexSteps_terminal_fixed n

/-! ## AST (ast package) -/

/-- A GraphQL type reference (ast.Type): name, non-null flag, list flag and
element type.  The zero Go value is `⟨"", false, false, none⟩`. -/
inductive GQLType where
  | mk (name : String) (nonNull : Bool) (isList : Bool) (elem : Option GQLType)

/-- The zero value `ast.Type{}`, left in place when type parsing fails. -/
def zeroType : GQLType := .mk "" false false none

/-- A literal value (ast.Value).  `kind` is a plain string in the Go code
("Int", "String", "Boolean", "Enum", "Variable", "Object", "Array", "Illegal").
Object fields are a Go map; modelled as an association list with
replace-on-insert semantics. -/
inductive Value where
  | mk (kind : String) (literal : String) (objectFields : List (String × Value))
      (list : List Value)

/-- An argument (ast.Argument).  The Go `Value` field is a pointer that the
parser leaves nil when an argument name is not followed by a colon. -/
structure Argument where
  name : String
  value : Option Value

/-- A field selection (ast.Field).  A selection set (ast.SelectionSet) is its
list of selections; the parser only ever creates Field selections, so the
wrapper struct is flattened to `List Field`.  `selectionSet = none` is the Go
nil pointer. -/
inductive Field where
  | mk (name : String) (arguments : List Argument) (selectionSet : Option (List Field))

/-- A selection set is the list of its (field) selections. -/
abbrev SelSet := List Field

def Field.name : Field → String
  | .mk n _ _ => n

def Field.arguments : Field → List Argument
  | .mk _ a _ => a

def Field.selectionSet : Field → Option SelSet
  | .mk _ _ s => s

/-- A variable definition (ast.VariableDefinition). -/
structure VariableDefinition where
  varName : String
  typ : GQLType

/-- An operation definition (ast.OperationDefinition). -/
structure OperationDefinition where
  operation : String
  name : String
  variableDefinitions : List VariableDefinition
  selectionSet : Option SelSet

/-- A type definition (ast.TypeDefinition). -/
structure TypeDefinition where
  name : String
  fields : List Field

/-- A top-level definition; `none` results of the parser model Go nil
definitions, which the document loop drops. -/
inductive Definition where
  | opDef (op : OperationDefinition)
  | typeDef (td : TypeDefinition)

/-- A document (ast.Document). -/
structure Document where
  definitions : List Definition

/-! ## Parser (parser/parser.go)

Parser state is `(curToken, peekToken, lexer)`; `pAdvance` is `p.nextToken()`.
Every parsing function takes a fuel parameter and returns `none` when fuel runs
out; every call (loop iteration or sub-parse) consumes one unit.  A run of the
Go parser that terminates is recovered at every sufficiently large fuel, and a
diverging Go loop is `none` for every fuel. -/

structure Parser where
  cur : Token
  peek : Token
  lx : Lexer

/-- nextToken (parser.go): shift the lookahead and pull one token. -/
def pAdvance (p : Parser) : Parser :=
  ⟨p.peek, (p.lx.NextToken).1, (p.lx.NextToken).2⟩

/-- New (parser.go): prime current and peek tokens.  The initial placeholder
tokens are Go zero values, never observed after the two advances. -/
def Parser.new (l : Lexer) : Parser :=
  pAdvance (pAdvance ⟨⟨.eof, ""⟩, ⟨.eof, ""⟩, l⟩)

def initParser (s : String) : Parser := Parser.new (Lexer.new s.data)

/-- Insert into a Go map modelled as an association list (replace or append). -/
def assocInsert {α : Type} : List (String × α) → String → α → List (String × α)
  | [], k, v => [(k, v)]
  | (k', v') :: rest, k, v =>
    if k' = k then (k, v) :: rest else (k', v') :: assocInsert rest k v

/-- skipTypeAnnotation (parser.go): straight-line token skipping for `: Type`
annotations inside type definitions. -/
def skipTypeAnnotation (p : Parser) : Parser :=
  if p.cur.typ ≠ .colon then p
  else
    let p1 := pAdvance p
    if p1.cur.typ = .lbracket then
      let p2 := pAdvance p1
      let p3 :=
        if p2.cur.typ = .ident then
          let pa := pAdvance p2
          if pa.cur.typ = .bang then pAdvance pa else pa
        else p2
      let p4 := if p3.cur.typ = .rbracket then pAdvance p3 else p3
      if p4.cur.typ = .bang then pAdvance p4 else p4
    else
      let p2 := if p1.cur.typ = .ident then pAdvance p1 else p1
      if p2.cur.typ = .bang then pAdvance p2 else p2

/-- The `if p.curToken.Type == token.COLON { p.skipTypeAnnotation() }` step of
parseTypeField. -/
def skipTypeAnnotationIf (p : Parser) : Parser :=
  if p.cur.typ = .colon then skipTypeAnnotation p else p

/-- Post-loop tail of skipTypeDefinition: consume the closing brace if present
and build the TypeDefinition node. -/
def typeDefResult (p : Parser) (acc : List Field) (tname : String) :
    Option Definition × Parser :=
  (some (.typeDef ⟨tname, acc⟩), if p.cur.typ = .rbrace then pAdvance p else p)

mutual

/-- ParseDocument (parser.go): loop until EOF collecting non-nil definitions. -/
def parseDocumentF : Nat → Parser → Option Document
  | 0, _ => none
  | f + 1, p =>
    if p.cur.typ = .eof then some ⟨[]⟩
    else
      match parseDefinitionF f p with
      | none => none
      | some (d?, p') =>
        match parseDocumentF f p' with
        | none => none
        | some doc =>
          match d? with
          | some d => some ⟨d :: doc.definitions⟩
          | none => some doc

/-- parseDefinition (parser.go).  Note that the keyword tests compare token
literals only, not token kinds. -/
def parseDefinitionF : Nat → Parser → Option (Option Definition × Parser)
  | 0, _ => none
  | f + 1, p =>
    if p.cur.literal = "query" ∨ p.cur.literal = "mutation" ∨
        p.cur.literal = "subscription" then
      match parseOperationDefinitionF f p with
      | none => none
      | some (op, p') => some (some (.opDef op), p')
    else if p.cur.typ = .lbrace then
      match parseOperationDefinitionF f p with
      | none => none
      | some (op, p') => some (some (.opDef op), p')
    else if p.cur.literal = "type" then
      skipTypeDefinitionF f p
    else some (none, pAdvance p)

/-- parseOperationDefinition (parser.go). -/
def parseOperationDefinitionF : Nat → Parser → Option (OperationDefinition × Parser)
  | 0, _ => none
  | f + 1, p =>
    if p.cur.literal = "query" ∨ p.cur.literal = "mutation" ∨
        p.cur.literal = "subscription" then
      let oper := p.cur.literal
      let p1 := pAdvance p
      let np := if p1.cur.typ = .ident then (p1.cur.literal, pAdvance p1) else ("", p1)
      if np.2.cur.typ = .lparen then
        match parseVariableDefinitionsF f np.2 with
        | none => none
        | some (vds, p3) => opDefFinishF f oper np.1 vds p3
      else opDefFinishF f oper np.1 [] np.2
    else opDefFinishF f "query" "" [] p

/-- Tail of parseOperationDefinition: the optional brace-delimited selection
set, absent (nil) when the current token is not `{`. -/
def opDefFinishF : Nat → String → String → List VariableDefinition → Parser →
    Option (OperationDefinition × Parser)
  | 0, _, _, _, _ => none
  | f + 1, oper, nm, vds, p =>
    if p.cur.typ = .lbrace then
      match parseSelectionSetF f p with
      | none => none
      | some (ss, p') => some (⟨oper, nm, vds, some ss⟩, p')
    else some (⟨oper, nm, vds, none⟩, p)

/-- parseVariableDefinitions (parser.go): skip `(` and run the loop. -/
def parseVariableDefinitionsF : Nat → Parser →
    Option (List VariableDefinition × Parser)
  | 0, _ => none
  | f + 1, p => varDefsLoopF f (pAdvance p) []

/-- The variable-definitions loop.  Faithful to the Go control flow: a current
token that is neither `$`, `,`, `)` nor EOF leaves the cursor untouched and
re-enters the loop. -/
def varDefsLoopF : Nat → Parser → List VariableDefinition →
    Option (List VariableDefinition × Parser)
  | 0, _, _ => none
  | f + 1, p, acc =>
    if p.cur.typ ≠ .rparen ∧ p.cur.typ ≠ .eof then
      if p.cur.typ = .dollar then
        let p1 := pAdvance p
        if p1.cur.typ ≠ .ident then some (acc, p1)
        else
          let vname := p1.cur.literal
          let p2 := pAdvance p1
          if p2.cur.typ = .colon then
            match parseTypeF f (pAdvance p2) with
            | none => none
            | some (t?, p3) =>
              let vd : VariableDefinition :=
                ⟨vname, match t? with | some t => t | none => zeroType⟩
              let p4 := if p3.cur.typ = .comma then pAdvance p3 else p3
              varDefsLoopF f p4 (acc ++ [vd])
          else
            let p4 := if p2.cur.typ = .comma then pAdvance p2 else p2
            varDefsLoopF f p4 (acc ++ [⟨vname, zeroType⟩])
      else
        let p' := if p.cur.typ = .comma then pAdvance p else p
        varDefsLoopF f p' acc
    else some (acc, pAdvance p)

/-- parseSelectionSet (parser.go): skip `{` and run the loop. -/
def parseSelectionSetF : Nat → Parser → Option (SelSet × Parser)
  | 0, _ => none
  | f + 1, p => ssLoopF f (pAdvance p) []

/-- The selection-set loop; parseSelection is parseField. -/
def ssLoopF : Nat → Parser → List Field → Option (SelSet × Parser)
  | 0, _, _ => none
  | f + 1, p, acc =>
    if p.cur.typ ≠ .rbrace ∧ p.cur.typ ≠ .eof then
      match parseFieldF f p with
      | none => none
      | some (sel?, p1) =>
        let acc' := match sel? with | some s => acc ++ [s] | none => acc
        let p2 := if p1.cur.typ = .comma then pAdvance p1 else p1
        ssLoopF f p2 acc'
    else some (acc, pAdvance p)

/-- parseField (parser.go): returns Go nil (here `none`) without moving when
the current token is not an identifier. -/
def parseFieldF : Nat → Parser → Option (Option Field × Parser)
  | 0, _ => none
  | f + 1, p =>
    if p.cur.typ ≠ .ident then some (none, p)
    else
      let fname := p.cur.literal
      let p1 := pAdvance p
      if p1.cur.typ = .lparen then
        match parseArgumentsF f p1 with
        | none => none
        | some (args, p2) => fieldFinishF f fname args p2
      else fieldFinishF f fname [] p1

/-- Tail of parseField: the optional nested selection set. -/
def fieldFinishF : Nat → String → List Argument → Parser →
    Option (Option Field × Parser)
  | 0, _, _, _ => none
  | f + 1, fname, args, p =>
    if p.cur.typ = .lbrace then
      match parseSelectionSetF f p with
      | none => none
      | some (ss, p') => some (some (.mk fname args (some ss)), p')
    else some (some (.mk fname args none), p)

/-- parseArguments (parser.go): skip `(` and run the loop. -/
def parseArgumentsF : Nat → Parser → Option (List Argument × Parser)
  | 0, _ => none
  | f + 1, p => argsLoopF f (pAdvance p) []

/-- The argument loop.  An argument name without a colon yields an Argument
whose value pointer is nil (`none`). -/
def argsLoopF : Nat → Parser → List Argument → Option (List Argument × Parser)
  | 0, _, _ => none
  | f + 1, p, acc =>
    if p.cur.typ ≠ .rparen ∧ p.cur.typ ≠ .eof then
      if p.cur.typ = .ident then
        let aname := p.cur.literal
        let p1 := pAdvance p
        if p1.cur.typ = .colon then
          match parseValueF f (pAdvance p1) with
          | none => none
          | some (v, p2) =>
            let p3 := if p2.cur.typ = .comma then pAdvance p2 else p2
            argsLoopF f p3 (acc ++ [⟨aname, some v⟩])
        else
          let p3 := if p1.cur.typ = .comma then pAdvance p1 else p1
          argsLoopF f p3 (acc ++ [⟨aname, none⟩])
      else
        let p' := if p.cur.typ = .comma then pAdvance p else p
        argsLoopF f p' acc
    else some (acc, pAdvance p)

/-- parseValue (parser.go). -/
def parseValueF : Nat → Parser → Option (Value × Parser)
  | 0, _ => none
  | f + 1, p =>
    if p.cur.typ = .lbrace then parseObjectF f p
    else if p.cur.typ = .lbracket then parseArrayF f p
    else if p.cur.typ = .int then some (.mk "Int" p.cur.literal [] [], pAdvance p)
    else if p.cur.typ = .string then some (.mk "String" p.cur.literal [] [], pAdvance p)
    else if p.cur.typ = .ident then
      if p.cur.literal = "true" ∨ p.cur.literal = "false" then
        some (.mk "Boolean" p.cur.literal [] [], pAdvance p)
      else some (.mk "Enum" p.cur.literal [] [], pAdvance p)
    else if p.cur.typ = .dollar then
      let p1 := pAdvance p
      if p1.cur.typ = .ident then some (.mk "Variable" p1.cur.literal [] [], pAdvance p1)
      else some (.mk "Variable" "" [] [], p1)
    else some (.mk "Illegal" p.cur.literal [] [], pAdvance p)

/-- parseObject (parser.go): skip `{` and run the loop. -/
def parseObjectF : Nat → Parser → Option (Value × Parser)
  | 0, _ => none
  | f + 1, p => objLoopF f (pAdvance p) []

/-- The object-literal loop with its two early `Illegal` returns, which leave
the cursor in place. -/
def objLoopF : Nat → Parser → List (String × Value) → Option (Value × Parser)
  | 0, _, _ => none
  | f + 1, p, acc =>
    if p.cur.typ ≠ .rbrace ∧ p.cur.typ ≠ .eof then
      if p.cur.typ ≠ .ident then some (.mk "Illegal" "expected object key" [] [], p)
      else
        let key := p.cur.literal
        let p1 := pAdvance p
        if p1.cur.typ ≠ .colon then some (.mk "Illegal" "expected colon in object" [] [], p1)
        else
          match parseValueF f (pAdvance p1) with
          | none => none
          | some (v, p2) =>
            let p3 := if p2.cur.typ = .comma then pAdvance p2 else p2
            objLoopF f p3 (assocInsert acc key v)
    else some (.mk "Object" "" acc [], pAdvance p)

/-- parseArray (parser.go): skip `[` and run the loop. -/
def parseArrayF : Nat → Parser → Option (Value × Parser)
  | 0, _ => none
  | f + 1, p => arrLoopF f (pAdvance p) []

/-- The array-literal loop; elements are appended in order. -/
def arrLoopF : Nat → Parser → List Value → Option (Value × Parser)
  | 0, _, _ => none
  | f + 1, p, acc =>
    if p.cur.typ ≠ .rbracket ∧ p.cur.typ ≠ .eof then
      match parseValueF f p with
      | none => none
      | some (v, p1) =>
        let p2 := if p1.cur.typ = .comma then pAdvance p1 else p1
        arrLoopF f p2 (acc ++ [v])
    else some (.mk "Array" "" [] acc, pAdvance p)

/-- parseType (parser.go).  Note the unconditional skip of the `]` position. -/
def parseTypeF : Nat → Parser → Option (Option GQLType × Parser)
  | 0, _ => none
  | f + 1, p =>
    if p.cur.typ = .lbracket then
      match parseTypeF f (pAdvance p) with
      | none => none
      | some (inner?, p2) =>
        let p3 := pAdvance p2
        if p3.cur.typ = .bang then some (some (.mk "" true true inner?), pAdvance p3)
        else some (some (.mk "" false true inner?), p3)
    else if p.cur.typ = .ident then
      let nm := p.cur.literal
      let p1 := pAdvance p
      if p1.cur.typ = .bang then some (some (.mk nm true false none), pAdvance p1)
      else some (some (.mk nm false false none), p1)
    else some (none, p)

/-- skipTypeDefinition (parser.go): header checks, then the capped field loop. -/
def skipTypeDefinitionF : Nat → Parser → Option (Option Definition × Parser)
  | 0, _ => none
  | f + 1, p =>
    let p1 := pAdvance p
    if p1.cur.typ ≠ .ident then some (none, p1)
    else
      let tname := p1.cur.literal
      let p2 := pAdvance p1
      if p2.cur.typ ≠ .lbrace then some (none, p2)
      else typeDefLoopF f (pAdvance p2) 0 [] tname

/-- The type-definition field loop with its 10000-iteration safety cap. -/
def typeDefLoopF : Nat → Parser → Nat → List Field → String →
    Option (Option Definition × Parser)
  | 0, _, _, _, _ => none
  | f + 1, p, iters, acc, tname =>
    if p.cur.typ ≠ .rbrace ∧ p.cur.typ ≠ .eof then
      if iters + 1 > 10000 then some (typeDefResult p acc tname)
      else
        match parseTypeFieldF f p with
        | none => none
        | some (fld?, p1) =>
          match fld? with
          | some fld =>
            let p2 := if p1.cur.typ = .comma then pAdvance p1 else p1
            typeDefLoopF f p2 (iters + 1) (acc ++ [fld]) tname
          | none =>
            let p1' := pAdvance p1
            let p2 := if p1'.cur.typ = .comma then pAdvance p1' else p1'
            typeDefLoopF f p2 (iters + 1) acc tname
    else some (typeDefResult p acc tname)

/-- parseTypeField (parser.go). -/
def parseTypeFieldF : Nat → Parser → Option (Option Field × Parser)
  | 0, _ => none
  | f + 1, p =>
    if p.cur.typ ≠ .ident then some (none, p)
    else
      let fname := p.cur.literal
      let p1 := pAdvance p
      if p1.cur.typ = .lparen then
        match skipParenBlockF f p1 with
        | none => none
        | some p2 => some (some (.mk fname [] none), skipTypeAnnotationIf p2)
      else some (some (.mk fname [] none), skipTypeAnnotationIf p1)

/-- skipParenBlock (parser.go). -/
def skipParenBlockF : Nat → Parser → Option Parser
  | 0, _ => none
  | f + 1, p =>
    if p.cur.typ ≠ .lparen then some p
    else parenLoopF f (pAdvance p) 1

/-- The balanced-paren skipping loop. -/
def parenLoopF : Nat → Parser → Nat → Option Parser
  | 0, _, _ => none
  | f + 1, p, depth =>
    if depth > 0 ∧ p.cur.typ ≠ .eof then
      let depth' :=
        if p.cur.typ = .lparen then depth + 1
        else if p.cur.typ = .rparen then depth - 1
        else depth
      parenLoopF f (pAdvance p) depth'
    else some p

end

/-- Parse a query string: build lexer and parser, run ParseDocument. -/
def parseDocument (fuel : Nat) (input : String) : Option Document :=
  parseDocumentF fuel (initParser input)

/-! ## Lexer theorems (claim C9) -/

/-- C9 (amended): for every input, after at most `lexMeasure` calls the lexer
reaches the terminal end-of-input state, and from that point every call to
NextToken returns the end-of-input token and leaves the state unchanged.  (The
original claim's stronger clause — that any returned end-of-input token implies
all later calls return end-of-input — fails for inputs containing a NUL byte;
see the counterexample.) -/
theorem nextToken_terminates_amended (input : List Char) (k : Nat)
    (h : lexMeasure (Lexer.new input) ≤ k) :
    lexSteps (Lexer.new input) k = ⟨nulChar, []⟩ ∧
      nthToken (Lexer.new input) k = ⟨.eof, ""⟩ := by
  have hs := lexSteps_reaches_terminal k (Lexer.new input) h
  refine ⟨hs, ?_⟩
  show ((lexSteps (Lexer.new input) k).NextToken).1 = _
  rw [hs, nextToken_terminal]

theorem nextToken_terminates_amended_witness :
    lexMeasure (Lexer.new ['a', 'b']) ≤ 5 ∧
      (lexSteps (Lexer.new ['a', 'b']) 5 = ⟨nulChar, []⟩ ∧
        nthToken (Lexer.new ['a', 'b']) 5 = ⟨.eof, ""⟩) :=
  ⟨by decide, nextToken_terminates_amended ['a', 'b'] 5 (by decide)⟩

/-- C9 (counterexample): on the input consisting of a NUL byte followed by
`a`, the first NextToken call returns an end-of-input token, yet the second
call returns an identifier token — so "once end-of-input has been returned,
every subsequent call also returns end-of-input" is false as stated. -/
theorem nextToken_eof_not_idempotent_on_nul :
    (nthToken (Lexer.new [nulChar, 'a']) 0).typ = .eof ∧
      (nthToken (Lexer.new [nulChar, 'a']) 1).typ = .ident := by
  decide

/-! ## Parser theorems (claims C1 and C8) -/

/-- The failing document for claim C1: an identifier with no `$` sigil inside
a variable-definitions list. -/
def stuckInput : String := "query (x) { h }"

/-- Parser state at the start of `stuckInput` (current token `query`). -/
def pQ : Parser := initParser stuckInput

/-- Parser state with current token `(`. -/
def pAtParen : Parser := pAdvance pQ

/-- Parser state inside the variable-definitions loop, current token the
identifier `x`: the loop body neither matches `$` nor `,` and leaves the
cursor untouched. -/
def sStuck : Parser := pAdvance pAtParen

set_option maxRecDepth 40000 in
theorem varDefsLoop_stuck : ∀ (f : Nat) (acc : List VariableDefinition),
    varDefsLoopF f sStuck acc = none := by
  intro f
  induction f with
  | zero => intro acc; rfl
  | succ f ih => intro acc; exact ih acc

set_option maxRecDepth 40000 in
theorem parseVarDefs_stuck : ∀ f : Nat, parseVariableDefinitionsF f pAtParen = none
  | 0 => rfl
  | f + 1 => varDefsLoop_stuck f []

set_option maxRecDepth 40000 in
theorem parseOpDef_stuck (f : Nat) : parseOperationDefinitionF f pQ = none := by
  cases f with
  | zero => rfl
  | succ f =>
    have hu : parseOperationDefinitionF (f + 1) pQ =
        (match parseVariableDefinitionsF f pAtParen with
         | none => none
         | some (vds, p3) => opDefFinishF f "query" "" vds p3) := rfl
    rw [hu, parseVarDefs_stuck f]

set_option maxRecDepth 40000 in
theorem parseDefinition_stuck (f : Nat) : parseDefinitionF f pQ = none := by
  cases f with
  | zero => rfl
  | succ f =>
    have hu : parseDefinitionF (f + 1) pQ =
        (match parseOperationDefinitionF f pQ with
         | none => none
         | some (op, p') => some (some (.opDef op), p')) := rfl
    rw [hu, parseOpDef_stuck f]

set_option maxRecDepth 40000 in
/-- C1: refuted on the code.  The variable-definitions loop does not advance
the cursor when the current token is an identifier not preceded by `$`, so
parsing `query (x) { h }` never terminates: the fueled parser returns `none`
(fuel exhaustion) for every fuel value. -/
theorem parseDocument_diverges_on_malformed_variable_definitions :
    ∀ fuel : Nat, parseDocument fuel stuckInput = none := by
  intro fuel
  show parseDocumentF fuel pQ = none
  cases fuel with
  | zero => rfl
  | succ f =>
    have hu : parseDocumentF (f + 1) pQ =
        (match parseDefinitionF f pQ with
         | none => none
         | some (d?, p') =>
           match parseDocumentF f p' with
           | none => none
           | some doc =>
             match d? with
             | some d => some ⟨d :: doc.definitions⟩
             | none => some doc) := rfl
    rw [hu, parseDefinition_stuck f]

/-- The document claimed for `{ hello }`: exactly one OperationDefinition of
kind `query`, empty name, no variable definitions, one field `hello` with no
arguments and no nested selection set. -/
def helloExpected : Document :=
  ⟨[.opDef ⟨"query", "", [], some [.mk "hello" [] none]⟩]⟩

set_option maxRecDepth 40000 in
/-- C8: parsing `{ hello }` (for any sufficient fuel) yields exactly the
document `helloExpected` — the implicit-query default. -/
theorem parse_hello_roundtrip :
    ∀ f : Nat, parseDocument (f + 30) "{ hello }" = some helloExpected :=
  fun _ => rfl

/-! ## Execution engine (executor package)

Go `interface{}` values visible to the engine are modelled by `GoVal`:
`vNil` is the nil interface, `vPtr none` a typed nil pointer inside a non-nil
interface, `vStruct` a struct value with named fields and optional json tags,
`vArr` a slice and `vMap` a `map[string]interface{}`.  Resolver functions are
opaque host functions returning a value or a Go error (a string). -/

/-- Go runtime values reachable by the engine. -/
inductive GoVal where
  | vNil
  | vInt (i : Int)
  | vStr (s : String)
  | vBool (b : Bool)
  | vPtr (target : Option GoVal)
  | vStruct (fields : List (String × Option String × GoVal))
  | vArr (elems : List GoVal)
  | vMap (entries : List (String × GoVal))

/-- Variable bindings supplied by the caller (`map[string]interface{}`). -/
abbrev Vars := String → Option GoVal

/-- Result maps built by executeSelectionSet (`map[string]interface{}`). -/
abbrev ResMap := List (String × GoVal)

/-- A resolver function: `(source, args) -> (value, error)`. -/
abbrev ResolverFunc := GoVal → ResMap → Except String GoVal

/-- The executor: per-kind resolver tables (lookup-only Go maps). -/
structure Executor where
  queryResolvers : String → Option ResolverFunc
  mutationResolvers : String → Option ResolverFunc
  subscriptionResolvers : String → Option ResolverFunc

/-- Typed execution errors (the executor's `fmt.Errorf` values, by provenance). -/
inductive ExecError where
  | noDefinitions
  | unsupportedDefinition
  | noResolver (field : String)
  | noResolverViaReflection (field : String)
  | sourceNotStruct
  | sourceNil
  | resolverError (msg : String)
deriving DecidableEq

/-- Outcome of running engine code: a value, a returned Go error, or a runtime
panic (nil-pointer dereference). -/
inductive ExecRes (α : Type) where
  | ok (a : α)
  | err (e : ExecError)
  | panics
deriving DecidableEq

instance : Monad ExecRes where
  pure := .ok
  bind := fun x f =>
    match x with
    | .ok a => f a
    | .err e => .err e
    | .panics => .panics

def ExecRes.map' {α β : Type} (f : α → β) : ExecRes α → ExecRes β
  | .ok a => .ok (f a)
  | .err e => .err e
  | .panics => .panics

/-- strconv.Atoi: optional sign, then decimal digits only, rejecting the empty
string and anything outside the 64-bit int range. -/
def digitsVal (cs : List Char) : Option Nat :=
  if cs ≠ [] ∧ cs.all Char.isDigit then
    some (cs.foldl (fun a c => a * 10 + (c.toNat - 48)) 0)
  else none

def goAtoi (s : String) : Option Int :=
  match s.data with
  | '+' :: rest =>
    (digitsVal rest).bind fun n =>
      if n ≤ 9223372036854775807 then some (Int.ofNat n) else none
  | '-' :: rest =>
    (digitsVal rest).bind fun n =>
      if n ≤ 9223372036854775808 then some (-(Int.ofNat n)) else none
  | l =>
    (digitsVal l).bind fun n =>
      if n ≤ 9223372036854775807 then some (Int.ofNat n) else none

mutual

/-- buildValue (executor.go): convert an AST value to a Go value; total. -/
def buildValue : Value → Vars → GoVal
  | .mk kind lit obj lst, vars =>
    if kind = "Variable" then
      match vars lit with
      | some v => v
      | none => .vNil
    else if kind = "Int" then
      match goAtoi lit with
      | some i => .vInt i
      | none => .vInt 0
    else if kind = "String" then .vStr lit
    else if kind = "Boolean" then .vBool (lit == "true")
    else if kind = "Object" then .vMap (buildObjFields obj vars)
    else if kind = "Array" then .vArr (buildList lst vars)
    else .vStr lit

/-- Recursive materialization of object entries. -/
def buildObjFields : List (String × Value) → Vars → List (String × GoVal)
  | [], _ => []
  | (k, v) :: rest, vars => (k, buildValue v vars) :: buildObjFields rest vars

/-- Recursive materialization of array elements, in order. -/
def buildList : List Value → Vars → List GoVal
  | [], _ => []
  | v :: rest, vars => buildValue v vars :: buildList rest vars

end

/-- buildArgs (executor.go).  `buildValue` is applied to each argument's value
pointer; a nil value pointer (possible parser output) panics, hence `none`. -/
def buildArgsList : List Argument → Vars → ResMap → Option ResMap
  | [], _, acc => some acc
  | a :: rest, vars, acc =>
    match a.value with
    | none => none
    | some v => buildArgsList rest vars (assocInsert acc a.name (buildValue v vars))

def buildArgsO (f : Field) (vars : Vars) : Option ResMap :=
  buildArgsList f.arguments vars []

/-- strings.EqualFold, adequate for ASCII names. -/
def eqFold (a b : String) : Bool := a.toLower == b.toLower

/-- Does a struct member match the requested field name: Go checks the member
name case-insensitively, then the first comma-separated component of the json
tag, for each member in order. -/
def fieldMatches (name : String) (tag : Option String) (fname : String) : Bool :=
  eqFold name fname ||
    (match tag with
     | some t => eqFold ((t.splitOn ",").headD "") fname
     | none => false)

/-- The member-scanning loop of reflectResolve. -/
def findField : List (String × Option String × GoVal) → String → ExecRes GoVal
  | [], fname => .err (.noResolverViaReflection fname)
  | (name, tag, v) :: rest, fname =>
    if fieldMatches name tag fname then .ok v else findField rest fname

/-- reflectResolve (executor.go): dereference a pointer (nil pointer fails
with SourceNil), require a struct (else SourceNotStruct), then scan members. -/
def reflectResolve (source : GoVal) (fname : String) : ExecRes GoVal :=
  match source with
  | .vPtr none => .err .sourceNil
  | .vPtr (some v) =>
    match v with
    | .vStruct fs => findField fs fname
    | _ => .err .sourceNotStruct
  | .vStruct fs => findField fs fname
  | _ => .err .sourceNotStruct

/-- Lift a resolver's Go result into the engine's result type. -/
def liftResolver (r : Except String GoVal) : ExecRes GoVal :=
  match r with
  | .ok v => .ok v
  | .error msg => .err (.resolverError msg)

/-- Invoke a resolver after materializing the field's arguments. -/
def invokeResolver (r : ResolverFunc) (source : GoVal) (f : Field) (vars : Vars) :
    ExecRes GoVal :=
  match buildArgsO f vars with
  | none => .panics
  | some args => liftResolver (r source args)

/-- resolveField (executor.go): with a nil source consult the query table,
then the mutation table, else NoResolver; with a non-nil source resolve by
reflection. -/
def resolveFieldE (e : Executor) (source : GoVal) (f : Field) (vars : Vars) :
    ExecRes GoVal :=
  match source with
  | .vNil =>
    match e.queryResolvers f.name with
    | some r => invokeResolver r .vNil f vars
    | none =>
      match e.mutationResolvers f.name with
      | some r => invokeResolver r .vNil f vars
      | none => .err (.noResolver f.name)
  | _ => reflectResolve source f.name

mutual

/-- The loop of executeSelectionSet (executor.go), building the result map. -/
def execFields : Executor → GoVal → List Field → Vars → ResMap → ExecRes ResMap
  | _, _, [], _, acc => .ok acc
  | e, source, .mk fname fargs fsub :: rest, vars, acc =>
    match resolveFieldE e source (.mk fname fargs fsub) vars with
    | .err er => .err er
    | .panics => .panics
    | .ok res =>
      match fsub with
      | some sub =>
        match resolveNested e res sub vars with
        | .err er => .err er
        | .panics => .panics
        | .ok nested => execFields e source rest vars (assocInsert acc fname nested)
      | none => execFields e source rest vars (assocInsert acc fname res)
termination_by _ _ fs _ _ => (sizeOf fs, 0, 0)

/-- resolveNestedSelection (executor.go); only ever called with a non-nil
selection set.  A struct, or pointer to a struct, is recursed into with the
value itself as source; a nil pointer is propagated; a slice is resolved
element-wise; anything else is returned verbatim. -/
def resolveNested : Executor → GoVal → SelSet → Vars → ExecRes GoVal
  | e, res, sub, vars =>
    match res with
    | .vPtr none => .ok (.vPtr none)
    | .vPtr (some v) =>
      match v with
      | .vStruct fs =>
        (execFields e (.vPtr (some (.vStruct fs))) sub vars []).map' .vMap
      | _ => .ok (.vPtr (some v))
    | .vStruct fs => (execFields e (.vStruct fs) sub vars []).map' .vMap
    | .vArr elems => (execElems e elems sub vars).map' .vArr
    | other => .ok other
termination_by _ _ sub _ => (sizeOf sub, 2, 0)

/-- The slice loop of resolveNestedSelection: resolve the selection set
against every element, in order, collecting the result maps. -/
def execElems : Executor → List GoVal → SelSet → Vars → ExecRes (List GoVal)
  | _, [], _, _ => .ok []
  | e, x :: xs, sub, vars =>
    match execFields e x sub vars [] with
    | .err er => .err er
    | .panics => .panics
    | .ok m =>
      match execElems e xs sub vars with
      | .err er => .err er
      | .panics => .panics
      | .ok ms => .ok (.vMap m :: ms)
termination_by _ elems sub _ => (sizeOf sub, 1, elems.length)

end

/-- executeSelectionSet (executor.go): dereferencing a nil selection-set
pointer is a Go nil-pointer panic. -/
def execSS (e : Executor) (source : GoVal) (ss : Option SelSet) (vars : Vars) :
    ExecRes ResMap :=
  match ss with
  | none => .panics
  | some fs => execFields e source fs vars []

/-- Execute (executor.go): fail on an empty document, fail on a non-operation
first definition, otherwise resolve the first operation's selection set
against a nil source and wrap the result under `data`. -/
def Execute (e : Executor) (doc : Document) (vars : Vars) : ExecRes ResMap :=
  match doc.definitions with
  | [] => .err .noDefinitions
  | d :: _ =>
    match d with
    | .typeDef _ => .err .unsupportedDefinition
    | .opDef op =>
      match execSS e .vNil op.selectionSet vars with
      | .err er => .err er
      | .panics => .panics
      | .ok data => .ok [("data", .vMap data)]

/-! ## Execution theorems -/

/-- The parse of the query text `query`: one OperationDefinition whose
SelectionSet pointer is nil. -/
def nilSelDoc : Document := ⟨[.opDef ⟨"query", "", [], none⟩]⟩

set_option maxRecDepth 40000 in
/-- C2: refuted on the code.  The input `query` parses to a document whose
first definition is an OperationDefinition with an absent (nil) SelectionSet,
and executing that document dereferences the nil pointer in
executeSelectionSet — a runtime panic, not a typed error. -/
theorem execute_panics_on_absent_selection_set :
    (∀ f : Nat, parseDocument (f + 20) "query" = some nilSelDoc) ∧
    (∀ (e : Executor) (vars : Vars), Execute e nilSelDoc vars = .panics) :=
  ⟨fun _ => rfl, fun _ _ => rfl⟩

/-- C10: the result of Execute does not depend on the operation kind of the
first definition: two documents that differ only in that kind (query,
mutation, subscription, or anything else) execute identically, because field
dispatch never consults it. -/
theorem execute_ignores_operation_kind (e : Executor) (vars : Vars)
    (kind1 kind2 nm : String) (vds : List VariableDefinition) (ss : Option SelSet)
    (rest : List Definition) :
    Execute e ⟨.opDef ⟨kind1, nm, vds, ss⟩ :: rest⟩ vars =
      Execute e ⟨.opDef ⟨kind2, nm, vds, ss⟩ :: rest⟩ vars := rfl

/-- C4: top-level dispatch (source absent, i.e. the nil interface): the query
table is consulted first, then the mutation table; a hit invokes the resolver
with a nil source and the materialized arguments; a double miss fails with
NoResolver, and that error is what Execute returns. -/
theorem resolveField_toplevel_dispatch :
    (∀ (e : Executor) (f : Field) (vars : Vars) (r : ResolverFunc) (args : ResMap),
      e.queryResolvers f.name = some r → buildArgsO f vars = some args →
      resolveFieldE e .vNil f vars = liftResolver (r .vNil args)) ∧
    (∀ (e : Executor) (f : Field) (vars : Vars) (r : ResolverFunc) (args : ResMap),
      e.queryResolvers f.name = none → e.mutationResolvers f.name = some r →
      buildArgsO f vars = some args →
      resolveFieldE e .vNil f vars = liftResolver (r .vNil args)) ∧
    (∀ (e : Executor) (f : Field) (vars : Vars),
      e.queryResolvers f.name = none → e.mutationResolvers f.name = none →
      resolveFieldE e .vNil f vars = .err (.noResolver f.name)) ∧
    (∀ (e : Executor) (vars : Vars) (fname : String),
      e.queryResolvers fname = none → e.mutationResolvers fname = none →
      Execute e ⟨[.opDef ⟨"query", "", [], some [.mk fname [] none]⟩]⟩ vars =
        .err (.noResolver fname)) := by
  refine ⟨?_, ?_, ?_, ?_⟩
  · intro e f vars r args hq hb
    simp [resolveFieldE, hq, invokeResolver, hb]
  · intro e f vars r args hq hm hb
    simp [resolveFieldE, hq, hm, invokeResolver, hb]
  · intro e f vars hq hm
    simp [resolveFieldE, hq, hm]
  · intro e vars fname hq hm
    have hn : (Field.mk fname [] none).name = fname := rfl
    simp [Execute, execSS, execFields, resolveFieldE, hn, hq, hm]

/-- A sample query resolver used in witnesses. -/
def greetResolver : ResolverFunc := fun _ _ => .ok (.vStr "Hello, World!")

/-- A sample executor with a single registered query resolver. -/
def e0 : Executor :=
  ⟨fun n => if n = "greet" then some greetResolver else none,
   fun _ => none, fun _ => none⟩

/-- Empty variable bindings. -/
def vars0 : Vars := fun _ => none

theorem resolveField_toplevel_dispatch_witness :
    e0.queryResolvers "greet" = some greetResolver ∧
      buildArgsO (.mk "greet" [] none) vars0 = some [] ∧
      resolveFieldE e0 .vNil (.mk "greet" [] none) vars0 =
        liftResolver (greetResolver .vNil []) :=
  ⟨rfl, rfl,
    resolveField_toplevel_dispatch.1 e0 (.mk "greet" [] none) vars0 greetResolver [] rfl rfl⟩

/-- C7: argument materialization is total (never an error) and behaves
per kind: Variable looks up the binding (absent when unbound), Int parses
base-10 with silent zero fallback, String and Enum pass the literal through,
Boolean compares the literal with `true`, Object and Array recurse (array
elements in order). -/
theorem buildValue_materialization :
    (∀ (lit : String) obj lst (vars : Vars),
      buildValue (.mk "Variable" lit obj lst) vars =
        (match vars lit with | some v => v | none => .vNil)) ∧
    (∀ (lit : String) obj lst (vars : Vars),
      buildValue (.mk "Int" lit obj lst) vars = .vInt ((goAtoi lit).getD 0)) ∧
    (∀ (lit : String) obj lst (vars : Vars),
      buildValue (.mk "String" lit obj lst) vars = .vStr lit) ∧
    (∀ (lit : String) obj lst (vars : Vars),
      buildValue (.mk "Enum" lit obj lst) vars = .vStr lit) ∧
    (∀ (lit : String) obj lst (vars : Vars),
      buildValue (.mk "Boolean" lit obj lst) vars = .vBool (lit == "true")) ∧
    (∀ (lit : String) obj lst (vars : Vars),
      buildValue (.mk "Object" lit obj lst) vars =
        .vMap (obj.map fun p => (p.1, buildValue p.2 vars))) ∧
    (∀ (lit : String) obj lst (vars : Vars),
      buildValue (.mk "Array" lit obj lst) vars =
        .vArr (lst.map fun v => buildValue v vars)) := by
  have hobj : ∀ (obj : List (String × Value)) (vars : Vars),
      buildObjFields obj vars = obj.map fun p => (p.1, buildValue p.2 vars) := by
    intro obj vars
    induction obj with
    | nil => rfl
    | cons p rest ih =>
      cases p with
      | mk k v => simp [buildObjFields, ih]
  have hlst : ∀ (lst : List Value) (vars : Vars),
      buildList lst vars = lst.map fun v => buildValue v vars := by
    intro lst vars
    induction lst with
    | nil => rfl
    | cons v rest ih => simp [buildList, ih]
  refine ⟨?_, ?_, ?_, ?_, ?_, ?_, ?_⟩
  · intro lit obj lst vars
    simp [buildValue]
  · intro lit obj lst vars
    simp only [buildValue]
    norm_num
    cases h : goAtoi lit <;> simp [h]
  · intro lit obj lst vars
    simp [buildValue]
  · intro lit obj lst vars
    simp [buildValue]
  · intro lit obj lst vars
    simp [buildValue]
  · intro lit obj lst vars
    simp [buildValue, hobj]
  · intro lit obj lst vars
    simp [buildValue, hlst]

/-- The claim's notion of a structured/record source: a struct value or a
non-nil pointer to one. -/
def isStructOrPtrStruct : GoVal → Bool
  | .vStruct _ => true
  | .vPtr (some (.vStruct _)) => true
  | _ => false

/-- The member scan returns the value of the first member whose name (folded)
or whose json-tag name matches. -/
theorem findField_eq_find (fs : List (String × Option String × GoVal)) (fname : String) :
    findField fs fname =
      (match fs.find? (fun m => fieldMatches m.1 m.2.1 fname) with
       | some m => .ok m.2.2
       | none => .err (.noResolverViaReflection fname)) := by
  induction fs with
  | nil => rfl
  | cons m rest ih =>
    obtain ⟨name, tag, v⟩ := m
    by_cases h : fieldMatches name tag fname
    · simp [findField, List.find?, h]
    · simp [findField, List.find?, h, ih]

/-- C5: nested (reflective) field resolution: a nil pointer fails with
SourceNil; a struct (or pointer to a struct) returns the value of the first
member whose name matches case-insensitively or whose json-tag name matches,
failing with NoResolverViaReflection when no member matches; every other
source shape fails with SourceNotStruct. -/
theorem reflectResolve_structural_lookup :
    (∀ fname, reflectResolve (.vPtr none) fname = .err .sourceNil) ∧
    (∀ fs fname, reflectResolve (.vStruct fs) fname =
      (match fs.find? (fun m => fieldMatches m.1 m.2.1 fname) with
       | some m => .ok m.2.2
       | none => .err (.noResolverViaReflection fname))) ∧
    (∀ fs fname, reflectResolve (.vPtr (some (.vStruct fs))) fname =
      (match fs.find? (fun m => fieldMatches m.1 m.2.1 fname) with
       | some m => .ok m.2.2
       | none => .err (.noResolverViaReflection fname))) ∧
    (∀ v fname, v ≠ .vPtr none → isStructOrPtrStruct v = false →
      reflectResolve v fname = .err .sourceNotStruct) := by
  refine ⟨fun _ => rfl, ?_, ?_, ?_⟩
  · intro fs fname
    simpa [reflectResolve] using findField_eq_find fs fname
  · intro fs fname
    simpa [reflectResolve] using findField_eq_find fs fname
  · intro v fname hne hs
    cases v with
    | vNil => rfl
    | vInt i => rfl
    | vStr s => rfl
    | vBool b => rfl
    | vArr elems => rfl
    | vMap entries => rfl
    | vStruct fs => simp [isStructOrPtrStruct] at hs
    | vPtr w =>
      cases w with
      | none => exact absurd rfl hne
      | some u =>
        cases u with
        | vStruct fs => simp [isStructOrPtrStruct] at hs
        | vNil => rfl
        | vInt i => rfl
        | vStr s => rfl
        | vBool b => rfl
        | vArr elems => rfl
        | vMap entries => rfl
        | vPtr w' => rfl

theorem reflectResolve_structural_lookup_witness :
    (GoVal.vInt 3 ≠ GoVal.vPtr none) ∧ isStructOrPtrStruct (.vInt 3) = false ∧
      reflectResolve (.vInt 3) "age" = .err .sourceNotStruct :=
  ⟨by simp, rfl,
    reflectResolve_structural_lookup.2.2.2 (.vInt 3) "age" (by simp) rfl⟩

/-- Value shapes that nested-selection resolution traverses or special-cases;
everything else is returned verbatim. -/
def traversable : GoVal → Bool
  | .vStruct _ => true
  | .vPtr (some (.vStruct _)) => true
  | .vPtr none => true
  | .vArr _ => true
  | _ => false

theorem resolveNested_vStruct (e : Executor) (sub : SelSet) (vars : Vars) fs :
    resolveNested e (.vStruct fs) sub vars =
      (execFields e (.vStruct fs) sub vars []).map' .vMap := by
  rw [resolveNested]

theorem resolveNested_vPtrStruct (e : Executor) (sub : SelSet) (vars : Vars) fs :
    resolveNested e (.vPtr (some (.vStruct fs))) sub vars =
      (execFields e (.vPtr (some (.vStruct fs))) sub vars []).map' .vMap := by
  rw [resolveNested]

theorem resolveNested_vPtrNone (e : Executor) (sub : SelSet) (vars : Vars) :
    resolveNested e (.vPtr none) sub vars = .ok (.vPtr none) := by
  rw [resolveNested]

theorem resolveNested_vArr (e : Executor) (sub : SelSet) (vars : Vars)
    (elems : List GoVal) :
    resolveNested e (.vArr elems) sub vars = (execElems e elems sub vars).map' .vArr := by
  rw [resolveNested]

theorem resolveNested_other (e : Executor) (sub : SelSet) (vars : Vars)
    (v : GoVal) (hv : traversable v = false) :
    resolveNested e v sub vars = .ok v := by
  cases v with
  | vNil => rw [resolveNested] <;> simp
  | vInt i => rw [resolveNested] <;> simp
  | vStr s => rw [resolveNested] <;> simp
  | vBool b => rw [resolveNested] <;> simp
  | vMap entries => rw [resolveNested] <;> simp
  | vArr elems => simp [traversable] at hv
  | vStruct fs => simp [traversable] at hv
  | vPtr w =>
    cases w with
    | none => simp [traversable] at hv
    | some u =>
      cases u with
      | vStruct fs => simp [traversable] at hv
      | vNil => rw [resolveNested] <;> simp
      | vInt i => rw [resolveNested] <;> simp
      | vStr s => rw [resolveNested] <;> simp
      | vBool b => rw [resolveNested] <;> simp
      | vArr elems => rw [resolveNested] <;> simp
      | vMap entries => rw [resolveNested] <;> simp
      | vPtr w' => rw [resolveNested] <;> simp

theorem execElems_ok_iff (e : Executor) (sub : SelSet) (vars : Vars) :
    ∀ (elems ms : List GoVal),
      execElems e elems sub vars = .ok ms ↔
        List.Forall₂
          (fun item out => ∃ m, execFields e item sub vars [] = .ok m ∧
            out = GoVal.vMap m) elems ms := by
  intro elems
  induction elems with
  | nil =>
    intro ms
    rw [execElems]
    constructor
    · intro h
      cases h
      exact List.Forall₂.nil
    · intro h
      cases h
      rfl
  | cons x xs ih =>
    intro ms
    rw [execElems]
    cases hx : execFields e x sub vars [] with
    | err er =>
      simp only
      constructor
      · intro h; cases h
      · intro h
        cases h with
        | cons hxy _ =>
          obtain ⟨m, hm, _⟩ := hxy
          rw [hx] at hm
          cases hm
    | panics =>
      simp only
      constructor
      · intro h; cases h
      · intro h
        cases h with
        | cons hxy _ =>
          obtain ⟨m, hm, _⟩ := hxy
          rw [hx] at hm
          cases hm
    | ok m =>
      simp only
      cases hxs : execElems e xs sub vars with
      | err er =>
        constructor
        · intro h; cases h
        · intro h
          cases h with
          | cons _ hrest =>
            have h2 := (ih _).mpr hrest
            rw [hxs] at h2
            cases h2
      | panics =>
        constructor
        · intro h; cases h
        · intro h
          cases h with
          | cons _ hrest =>
            have h2 := (ih _).mpr hrest
            rw [hxs] at h2
            cases h2
      | ok ms' =>
        constructor
        · intro h
          cases h
          exact List.Forall₂.cons ⟨m, hx, rfl⟩ ((ih ms').mp hxs)
        · intro h
          cases h with
          | cons hxy hrest =>
            obtain ⟨m', hm', hout⟩ := hxy
            rw [hx] at hm'
            cases hm'
            have := (ih _).mpr hrest
            rw [hxs] at this
            cases this
            rw [hout]

/-- C6: nested-selection resolution after a field's value is resolved: a
struct (or non-nil pointer to a struct) is recursed into directly; a slice is
resolved independently against every element with results collected in the
original order; a nil pointer propagates unchanged; every other shape is
returned verbatim with no error. -/
theorem resolveNestedSelection_shapes :
    (∀ (e : Executor) (sub : SelSet) (vars : Vars) fs,
      resolveNested e (.vStruct fs) sub vars =
        (execFields e (.vStruct fs) sub vars []).map' .vMap) ∧
    (∀ (e : Executor) (sub : SelSet) (vars : Vars) fs,
      resolveNested e (.vPtr (some (.vStruct fs))) sub vars =
        (execFields e (.vPtr (some (.vStruct fs))) sub vars []).map' .vMap) ∧
    (∀ (e : Executor) (sub : SelSet) (vars : Vars),
      resolveNested e (.vPtr none) sub vars = .ok (.vPtr none)) ∧
    (∀ (e : Executor) (sub : SelSet) (vars : Vars) (elems ms : List GoVal),
      resolveNested e (.vArr elems) sub vars = .ok (.vArr ms) ↔
        List.Forall₂
          (fun item out => ∃ m, execFields e item sub vars [] = .ok m ∧
            out = GoVal.vMap m) elems ms) ∧
    (∀ (e : Executor) (sub : SelSet) (vars : Vars) (v : GoVal),
      traversable v = false → resolveNested e v sub vars = .ok v) := by
  refine ⟨?_, ?_, ?_, ?_, ?_⟩
  · intro e sub vars fs
    exact resolveNested_vStruct e sub vars fs
  · intro e sub vars fs
    exact resolveNested_vPtrStruct e sub vars fs
  · intro e sub vars
    exact resolveNested_vPtrNone e sub vars
  · intro e sub vars elems ms
    rw [resolveNested_vArr]
    cases hx : execElems e elems sub vars with
    | err er =>
      simp only [ExecRes.map']
      constructor
      · intro h; cases h
      · intro h
        have h2 := (execElems_ok_iff e sub vars elems ms).mpr h
        rw [hx] at h2
        cases h2
    | panics =>
      simp only [ExecRes.map']
      constructor
      · intro h; cases h
      · intro h
        have h2 := (execElems_ok_iff e sub vars elems ms).mpr h
        rw [hx] at h2
        cases h2
    | ok l =>
      simp only [ExecRes.map']
      constructor
      · intro h
        injection h with h'
        injection h' with h''
        subst h''
        exact (execElems_ok_iff e sub vars elems l).mp hx
      · intro h
        have h2 := (execElems_ok_iff e sub vars elems ms).mpr h
        rw [hx] at h2
        injection h2 with h3
        subst h3
        rfl
  · intro e sub vars v hv
    exact resolveNested_other e sub vars v hv

theorem resolveNestedSelection_shapes_witness :
    traversable (GoVal.vStr "leaf") = false ∧
      resolveNested e0 (.vStr "leaf") [] vars0 = .ok (.vStr "leaf") :=
  ⟨rfl, resolveNestedSelection_shapes.2.2.2.2 e0 [] vars0 (.vStr "leaf") rfl⟩

/-- Errors produced below the top level of Execute are never the two
document-level errors. -/
def notTop (er : ExecError) : Prop :=
  er ≠ .noDefinitions ∧ er ≠ .unsupportedDefinition

theorem findField_notTop (fs : List (String × Option String × GoVal))
    (fname : String) (er : ExecError) (h : findField fs fname = .err er) :
    notTop er := by
  induction fs with
  | nil =>
    rw [findField] at h
    injection h with h'
    subst h'
    exact ⟨by simp, by simp⟩
  | cons m rest ih =>
    obtain ⟨name, tag, v⟩ := m
    rw [findField] at h
    split at h
    · cases h
    · exact ih h

theorem reflectResolve_notTop (source : GoVal) (fname : String) (er : ExecError)
    (h : reflectResolve source fname = .err er) : notTop er := by
  unfold reflectResolve at h
  split at h
  · injection h with h'; subst h'; exact ⟨by simp, by simp⟩
  · split at h
    · exact findField_notTop _ _ _ h
    · injection h with h'; subst h'; exact ⟨by simp, by simp⟩
  · exact findField_notTop _ _ _ h
  · injection h with h'; subst h'; exact ⟨by simp, by simp⟩

theorem liftResolver_notTop (r : Except String GoVal) (er : ExecError)
    (h : liftResolver r = .err er) : notTop er := by
  cases r with
  | ok v => cases h
  | error msg =>
    injection h with h'
    subst h'
    exact ⟨by simp, by simp⟩

theorem invokeResolver_notTop (r : ResolverFunc) (source : GoVal) (f : Field)
    (vars : Vars) (er : ExecError)
    (h : invokeResolver r source f vars = .err er) : notTop er := by
  unfold invokeResolver at h
  split at h
  · cases h
  · exact liftResolver_notTop _ _ h

theorem resolveFieldE_notTop (e : Executor) (source : GoVal) (f : Field)
    (vars : Vars) (er : ExecError)
    (h : resolveFieldE e source f vars = .err er) : notTop er := by
  unfold resolveFieldE at h
  split at h
  · split at h
    · exact invokeResolver_notTop _ _ _ _ _ h
    · split at h
      · exact invokeResolver_notTop _ _ _ _ _ h
      · injection h with h'; subst h'; exact ⟨by simp, by simp⟩
  · exact reflectResolve_notTop _ _ _ h

theorem exec_notTop : ∀ n : Nat,
    (∀ fs : List Field, sizeOf fs ≤ n → ∀ (e : Executor) (src : GoVal)
      (vars : Vars) (acc : ResMap) (er : ExecError),
      execFields e src fs vars acc = .err er → notTop er) ∧
    (∀ sub : SelSet, sizeOf sub ≤ n → ∀ (e : Executor) (elems : List GoVal)
      (vars : Vars) (er : ExecError),
      execElems e elems sub vars = .err er → notTop er) ∧
    (∀ sub : SelSet, sizeOf sub ≤ n → ∀ (e : Executor) (res : GoVal)
      (vars : Vars) (er : ExecError),
      resolveNested e res sub vars = .err er → notTop er) := by
  intro n
  induction n using Nat.strong_induction_on with
  | _ n ih =>
    have hF : ∀ fs : List Field, sizeOf fs ≤ n → ∀ (e : Executor) (src : GoVal)
        (vars : Vars) (acc : ResMap) (er : ExecError),
        execFields e src fs vars acc = .err er → notTop er := by
      intro fs
      induction fs with
      | nil =>
        intro _ e src vars acc er h
        rw [execFields] at h
        cases h
      | cons fld rest ihf =>
        intro hsz e src vars acc er h
        obtain ⟨fname, fargs, fsub⟩ := fld
        have hszf := List.cons.sizeOf_spec (Field.mk fname fargs fsub) rest
        have hszm := Field.mk.sizeOf_spec fname fargs fsub
        rw [execFields] at h
        split at h
        · next er' heq =>
            injection h with h'
            subst h'
            exact resolveFieldE_notTop _ _ _ _ _ heq
        · cases h
        · next res heq =>
            split at h
            · next sub =>
                have hszs := Option.some.sizeOf_spec sub
                split at h
                · next er' hn =>
                    injection h with h'
                    subst h'
                    have hlt : sizeOf sub < n := by omega
                    exact (ih (sizeOf sub) hlt).2.2 sub (Nat.le_refl _) e res vars _ hn
                · cases h
                · next nested hn =>
                    exact ihf (by omega) e src vars _ er h
            · exact ihf (by omega) e src vars _ er h
    have hE : ∀ sub : SelSet, sizeOf sub ≤ n → ∀ (e : Executor)
        (elems : List GoVal) (vars : Vars) (er : ExecError),
        execElems e elems sub vars = .err er → notTop er := by
      intro sub hsz e elems
      induction elems with
      | nil =>
        intro vars er h
        rw [execElems] at h
        cases h
      | cons x xs ihe =>
        intro vars er h
        rw [execElems] at h
        cases hx : execFields e x sub vars [] with
        | err er' =>
          rw [hx] at h
          injection h with h'
          subst h'
          exact hF sub hsz e x vars [] _ hx
        | panics => rw [hx] at h; cases h
        | ok m =>
          rw [hx] at h
          cases hxs : execElems e xs sub vars with
          | err er' =>
            rw [hxs] at h
            injection h with h'
            subst h'
            exact ihe vars _ hxs
          | panics => rw [hxs] at h; cases h
          | ok ms => rw [hxs] at h; cases h
    have hMap : ∀ (x : ExecRes ResMap) (g : ResMap → GoVal) (er : ExecError),
        x.map' g = .err er → x = .err er := by
      intro x g er h
      cases x with
      | ok a => simp [ExecRes.map'] at h
      | panics => simp [ExecRes.map'] at h
      | err e' =>
        simp only [ExecRes.map'] at h
        injection h with h2
        rw [h2]
    have hMapL : ∀ (x : ExecRes (List GoVal)) (g : List GoVal → GoVal) (er : ExecError),
        x.map' g = .err er → x = .err er := by
      intro x g er h
      cases x with
      | ok a => simp [ExecRes.map'] at h
      | panics => simp [ExecRes.map'] at h
      | err e' =>
        simp only [ExecRes.map'] at h
        injection h with h2
        rw [h2]
    have hN : ∀ sub : SelSet, sizeOf sub ≤ n → ∀ (e : Executor) (res : GoVal)
        (vars : Vars) (er : ExecError),
        resolveNested e res sub vars = .err er → notTop er := by
      intro sub hsz e res vars er h
      cases res with
      | vStruct fs =>
        rw [resolveNested_vStruct] at h
        have h2 := hMap _ _ _ h
        exact hF sub hsz e _ vars [] er h2
      | vArr elems =>
        rw [resolveNested_vArr] at h
        have h2 := hMapL _ _ _ h
        exact hE sub hsz e _ vars er h2
      | vNil => rw [resolveNested_other e sub vars .vNil rfl] at h; cases h
      | vInt i => rw [resolveNested_other e sub vars (.vInt i) rfl] at h; cases h
      | vStr str => rw [resolveNested_other e sub vars (.vStr str) rfl] at h; cases h
      | vBool b => rw [resolveNested_other e sub vars (.vBool b) rfl] at h; cases h
      | vMap entries => rw [resolveNested_other e sub vars (.vMap entries) rfl] at h; cases h
      | vPtr w =>
        cases w with
        | none => rw [resolveNested_vPtrNone] at h; cases h
        | some u =>
          cases u with
          | vStruct fs =>
            rw [resolveNested_vPtrStruct] at h
            have h2 := hMap _ _ _ h
            exact hF sub hsz e _ vars [] er h2
          | vNil => rw [resolveNested_other e sub vars (.vPtr (some .vNil)) rfl] at h; cases h
          | vInt i => rw [resolveNested_other e sub vars (.vPtr (some (.vInt i))) rfl] at h; cases h
          | vStr str => rw [resolveNested_other e sub vars (.vPtr (some (.vStr str))) rfl] at h; cases h
          | vBool b => rw [resolveNested_other e sub vars (.vPtr (some (.vBool b))) rfl] at h; cases h
          | vArr elems => rw [resolveNested_other e sub vars (.vPtr (some (.vArr elems))) rfl] at h; cases h
          | vMap entries => rw [resolveNested_other e sub vars (.vPtr (some (.vMap entries))) rfl] at h; cases h
          | vPtr w2 => rw [resolveNested_other e sub vars (.vPtr (some (.vPtr w2))) rfl] at h; cases h
    exact ⟨hF, hE, hN⟩

/-- C3: Execute fails with NoDefinitions exactly on an empty document, fails
with UnsupportedDefinition exactly when the first definition is a
non-operation (type) definition, and otherwise its result depends only on the
first definition — definitions after the first never contribute. -/
theorem execute_first_definition_semantics :
    (∀ (e : Executor) (vars : Vars), Execute e ⟨[]⟩ vars = .err .noDefinitions) ∧
    (∀ (e : Executor) (doc : Document) (vars : Vars),
      Execute e doc vars = .err .noDefinitions → doc.definitions = []) ∧
    (∀ (e : Executor) (td : TypeDefinition) (rest : List Definition) (vars : Vars),
      Execute e ⟨.typeDef td :: rest⟩ vars = .err .unsupportedDefinition) ∧
    (∀ (e : Executor) (doc : Document) (vars : Vars),
      Execute e doc vars = .err .unsupportedDefinition →
        ∃ td rest, doc.definitions = Definition.typeDef td :: rest) ∧
    (∀ (e : Executor) (d : Definition) (rest rest' : List Definition) (vars : Vars),
      Execute e ⟨d :: rest⟩ vars = Execute e ⟨d :: rest'⟩ vars) := by
  refine ⟨fun _ _ => rfl, ?_, fun _ _ _ _ => rfl, ?_, ?_⟩
  · intro e doc vars h
    obtain ⟨defs⟩ := doc
    cases defs with
    | nil => rfl
    | cons d rest =>
      cases d with
      | typeDef td => simp [Execute] at h
      | opDef op =>
        rw [show Execute e ⟨Definition.opDef op :: rest⟩ vars =
            (match execSS e .vNil op.selectionSet vars with
             | .err er => .err er
             | .panics => .panics
             | .ok data => .ok [("data", .vMap data)]) from rfl] at h
        split at h
        · next er' heq =>
            injection h with h'
            subst h'
            cases hss : op.selectionSet with
            | none =>
              rw [hss] at heq
              rw [show execSS e GoVal.vNil none vars = ExecRes.panics from rfl] at heq
              cases heq
            | some sub =>
              rw [hss] at heq
              have h2 : execFields e .vNil sub vars [] = .err .noDefinitions := heq
              have h3 := (exec_notTop (sizeOf sub)).1 sub (Nat.le_refl _) e .vNil vars [] _ h2
              exact absurd rfl h3.1
        · cases h
        · cases h
  · intro e doc vars h
    obtain ⟨defs⟩ := doc
    cases defs with
    | nil => simp [Execute] at h
    | cons d rest =>
      cases d with
      | typeDef td => exact ⟨td, rest, rfl⟩
      | opDef op =>
        rw [show Execute e ⟨Definition.opDef op :: rest⟩ vars =
            (match execSS e .vNil op.selectionSet vars with
             | .err er => .err er
             | .panics => .panics
             | .ok data => .ok [("data", .vMap data)]) from rfl] at h
        split at h
        · next er' heq =>
            injection h with h'
            subst h'
            cases hss : op.selectionSet with
            | none =>
              rw [hss] at heq
              rw [show execSS e GoVal.vNil none vars = ExecRes.panics from rfl] at heq
              cases heq
            | some sub =>
              rw [hss] at heq
              have h2 : execFields e .vNil sub vars [] = .err .unsupportedDefinition := heq
              have h3 := (exec_notTop (sizeOf sub)).1 sub (Nat.le_refl _) e .vNil vars [] _ h2
              exact absurd rfl h3.2
        · cases h
        · cases h
  · intro e d rest rest' vars
    cases d with
    | opDef op => rfl
    | typeDef td => rfl

theorem execute_first_definition_semantics_witness :
    Execute e0 (⟨[]⟩ : Document) vars0 = .err .noDefinitions ∧
      (⟨[]⟩ : Document).definitions = [] :=
  ⟨execute_first_definition_semantics.1 e0 vars0,
   execute_first_definition_semantics.2.1 e0 ⟨[]⟩ vars0 rfl⟩
